import Mathlib

/-!
Verification of the solscript wallet-manager CLI (src/index.js) against its
natural-language specification.  Each definition below is a shallow embedding
of the corresponding JavaScript function; JavaScript numbers that only ever
hold lamport counts (non-negative integers well inside the safe-integer
range) are modelled as `Nat`, fallible external calls (RPC submission,
keypair derivation, base64 decoding) are modelled as explicit function
parameters returning `Except`/`Option`.
-/

namespace SolScript

/-- Wallet record as stored in wallets.json (see createWallet, src/index.js
lines 85-89): a name, a base58 public key and a base58 private key. -/
structure Wallet where
  name : String
  publicKey : String
  privateKey : String
deriving DecidableEq, Repr

/-! ## Collection policy (collectSol, src/index.js lines 523-543)

The body of the per-wallet loop of `collectSol`:

  const balance = await connection.getBalance(...);
  const rentExemptBalance = await connection.getMinimumBalanceForRentExemption(0);
  const transferFee = 5000;
  const totalMinimumRequired = rentExemptBalance + transferFee + leaveAmountLamports;
  if (balance <= totalMinimumRequired) { skip; }
  const transferAmount = balance - leaveAmountLamports - transferFee;

`none` models the `skip` branch, `some a` models building a transfer of `a`
lamports. -/

def collectPlan (balance rentExemptBalance transferFee leaveAmountLamports : Nat) :
    Option Nat :=
  let totalMinimumRequired := rentExemptBalance + transferFee + leaveAmountLamports
  if balance ≤ totalMinimumRequired then none
  else some (balance - leaveAmountLamports - transferFee)

/-- Claim C3: for every balance, reserveAmount, feeEstimate and minRentExempt,
the collection policy skips the wallet exactly when
`balance ≤ minRentExempt + feeEstimate + reserveAmount`, and otherwise
withdraws exactly `balance - reserveAmount - feeEstimate` (minRentExempt
enters the skip threshold but is not subtracted from the withdrawn amount). -/
theorem collect_policy_threshold
    (balance minRentExempt feeEstimate reserveAmount : Nat) :
    (collectPlan balance minRentExempt feeEstimate reserveAmount = none ↔
      balance ≤ minRentExempt + feeEstimate + reserveAmount)
    ∧ (minRentExempt + feeEstimate + reserveAmount < balance →
      collectPlan balance minRentExempt feeEstimate reserveAmount =
        some (balance - reserveAmount - feeEstimate)) := by
  unfold collectPlan
  constructor
  · constructor
    · intro h
      by_contra hb
      simp only [if_neg hb] at h
      exact Option.noConfusion h
    · intro h
      simp only [if_pos h]
  · intro h
    have hb : ¬ balance ≤ minRentExempt + feeEstimate + reserveAmount := by omega
    simp only [if_neg hb]

/-- Concrete instance of `collect_policy_threshold`: with
minRentExempt = 890880, feeEstimate = 5000, reserve = 0 and balance = 895881,
the policy withdraws 890881 lamports. -/
theorem collect_policy_threshold_witness :
    collectPlan 895881 890880 5000 0 = some 890881 :=
  (collect_policy_threshold 895881 890880 5000 0).2 (by decide)

/-- Claim C4, counterexample: with minRentExempt = 890880, feeEstimate = 5000
and reserve = 0, a balance of 895881 does NOT withdraw 895881 lamports (the
code withdraws balance - reserve - fee = 890881). -/
theorem collect_example_counterexample :
    collectPlan 895881 890880 5000 0 ≠ some 895881 := by decide

/-- Claim C4, amended: with minRentExempt = 890880, feeEstimate = 5000 and
reserve = 0, the collection policy on a balance of 895880 decides skip, and
on a balance of 895881 decides to withdraw 890881. -/
theorem collect_example_values :
    collectPlan 895880 890880 5000 0 = none
    ∧ collectPlan 895881 890880 5000 0 = some 890881 := by
  exact ⟨by decide, by decide⟩

/-- Claim C10: whenever the collection policy decides to withdraw, the
computed transfer amount is strictly greater than minRentExempt and hence
strictly positive, so the transfer instruction is never constructed with a
zero lamport amount. -/
theorem collect_amount_positive
    (balance minRentExempt feeEstimate reserveAmount amount : Nat)
    (h : collectPlan balance minRentExempt feeEstimate reserveAmount = some amount) :
    minRentExempt < amount ∧ 0 < amount := by
  unfold collectPlan at h
  by_cases hb : balance ≤ minRentExempt + feeEstimate + reserveAmount
  · simp only [if_pos hb] at h
    exact Option.noConfusion h
  · simp only [if_neg hb, Option.some.injEq] at h
    omega

/-- Concrete instance of `collect_amount_positive` at balance 895881,
minRentExempt 890880, fee 5000, reserve 0. -/
theorem collect_amount_positive_witness :
    890880 < 890881 ∧ 0 < 890881 :=
  collect_amount_positive 895881 890880 5000 0 890881 (by decide)

/-! ## Batch planner (sendSolToAll / sendTokenToAll, src/index.js lines 652-803)

The batching loop, identical in both functions up to the constant
(MAX_WALLETS_PER_TX = 10 for native SOL, 5 for SPL tokens):

  const walletBatches = [];
  for (let i = 0; i < targetWallets.length; i += MAX_WALLETS_PER_TX) {
    walletBatches.push(targetWallets.slice(i, i + MAX_WALLETS_PER_TX));
  }

`walletBatchesGo` peels off `slice(i, i + max)` = `take max` and recurses on
`drop max`; the fuel argument (instantiated with the list length, an upper
bound on the number of loop iterations) only makes the recursion structural,
so that the definition evaluates by kernel reduction. -/

def walletBatchesGo {α : Type} (maxPerTx : Nat) : Nat → List α → List (List α)
  | _, [] => []
  | 0, _ :: _ => []
  | fuel + 1, x :: xs =>
    (x :: xs).take maxPerTx :: walletBatchesGo maxPerTx fuel (xs.drop (maxPerTx - 1))

def walletBatches {α : Type} (maxPerTx : Nat) (targetWallets : List α) :
    List (List α) :=
  walletBatchesGo maxPerTx targetWallets.length targetWallets

theorem walletBatchesGo_flatten {α : Type} (m : Nat) (hm : 0 < m) :
    ∀ (fuel : Nat) (l : List α), l.length ≤ fuel →
      (walletBatchesGo m fuel l).flatten = l := by
  intro fuel
  induction fuel with
  | zero =>
    intro l hl
    cases l with
    | nil => rfl
    | cons x xs => simp at hl
  | succ n ih =>
    intro l hl
    cases l with
    | nil => rfl
    | cons x xs =>
      obtain ⟨k, rfl⟩ : ∃ k, m = k + 1 := ⟨m - 1, by omega⟩
      have hdrop : (xs.drop k).length ≤ n := by
        simp only [List.length_drop]
        simp only [List.length_cons] at hl
        omega
      show ((x :: xs).take (k + 1) :: walletBatchesGo (k + 1) n (xs.drop k)).flatten
          = x :: xs
      rw [List.flatten_cons, ih (xs.drop k) hdrop]
      have : xs.drop k = (x :: xs).drop (k + 1) := (List.drop_succ_cons).symm
      rw [this, List.take_append_drop]

theorem walletBatchesGo_length {α : Type} (m : Nat) (hm : 0 < m) :
    ∀ (fuel : Nat) (l : List α), l.length ≤ fuel →
      (walletBatchesGo m fuel l).length = (l.length + m - 1) / m := by
  intro fuel
  induction fuel with
  | zero =>
    intro l hl
    cases l with
    | nil =>
      simp only [walletBatchesGo, List.length_nil]
      rw [Nat.div_eq_of_lt (by omega)]
    | cons x xs => simp at hl
  | succ n ih =>
    intro l hl
    cases l with
    | nil =>
      simp only [walletBatchesGo, List.length_nil]
      rw [Nat.div_eq_of_lt (by omega)]
    | cons x xs =>
      have hdrop : (xs.drop (m - 1)).length ≤ n := by
        simp only [List.length_drop]
        simp only [List.length_cons] at hl
        omega
      show (walletBatchesGo m n (xs.drop (m - 1))).length + 1
          = ((x :: xs).length + m - 1) / m
      rw [ih (xs.drop (m - 1)) hdrop]
      simp only [List.length_drop, List.length_cons]
      have ht : xs.length + 1 + m - 1 = xs.length + m := by omega
      rw [ht, Nat.add_div_right xs.length hm]
      by_cases hc : m - 1 ≤ xs.length
      · have : xs.length - (m - 1) + m - 1 = xs.length := by omega
        rw [this]
      · have h0 : xs.length - (m - 1) = 0 := by omega
        have h1 : xs.length - (m - 1) + m - 1 = m - 1 := by omega
        rw [h1, Nat.div_eq_of_lt (by omega), Nat.div_eq_of_lt (by omega)]

theorem walletBatchesGo_sizes {α : Type} (m : Nat) (hm : 0 < m) :
    ∀ (fuel : Nat) (l : List α) (b : List α),
      b ∈ walletBatchesGo m fuel l → b ≠ [] ∧ b.length ≤ m := by
  intro fuel
  induction fuel with
  | zero =>
    intro l b hb
    cases l <;> simp [walletBatchesGo] at hb
  | succ n ih =>
    intro l b hb
    cases l with
    | nil => simp [walletBatchesGo] at hb
    | cons x xs =>
      simp only [walletBatchesGo, List.mem_cons] at hb
      rcases hb with hb | hb
      · subst hb
        constructor
        · obtain ⟨k, rfl⟩ : ∃ k, m = k + 1 := ⟨m - 1, by omega⟩
          simp [List.take_cons]
        · simp only [List.length_take]
          exact min_le_left _ _
      · exact ih _ b hb

/-- Claim C1: for every non-empty list of target wallets, the batch planner
(native max 10, token max 5) partitions it into ceil(N/max) contiguous
batches preserving the original order (each batch non-empty and of size at
most max), such that concatenating the batches reproduces the input list
exactly; for native transfers on 23 wallets it yields 3 batches of sizes
[10, 10, 3]. -/
theorem batch_planner_partition (l : List Wallet) (h : l ≠ []) :
    ((walletBatches 10 l).flatten = l
      ∧ (walletBatches 10 l).length = (l.length + 10 - 1) / 10
      ∧ ∀ b ∈ walletBatches 10 l, b ≠ [] ∧ b.length ≤ 10)
    ∧ ((walletBatches 5 l).flatten = l
      ∧ (walletBatches 5 l).length = (l.length + 5 - 1) / 5
      ∧ ∀ b ∈ walletBatches 5 l, b ≠ [] ∧ b.length ≤ 5)
    ∧ (walletBatches 10 (List.range 23)).map List.length = [10, 10, 3] := by
  refine ⟨⟨?_, ?_, ?_⟩, ⟨?_, ?_, ?_⟩, by decide⟩
  · exact walletBatchesGo_flatten 10 (by omega) l.length l le_rfl
  · exact walletBatchesGo_length 10 (by omega) l.length l le_rfl
  · exact fun b hb => walletBatchesGo_sizes 10 (by omega) l.length l b hb
  · exact walletBatchesGo_flatten 5 (by omega) l.length l le_rfl
  · exact walletBatchesGo_length 5 (by omega) l.length l le_rfl
  · exact fun b hb => walletBatchesGo_sizes 5 (by omega) l.length l b hb

/-- Concrete instance of `batch_planner_partition`: the 23-wallet example. -/
theorem batch_planner_partition_witness :
    (walletBatches 10 (List.range 23)).map List.length = [10, 10, 3] :=
  (batch_planner_partition [⟨"w1", "pk1", "sk1"⟩] (by decide)).2.2

/-! ## Per-batch submission loop (src/index.js lines 666-700 and 745-800)

Both `sendSolToAll` and `sendTokenToAll` iterate over the planned batches
with the whole body of the loop wrapped in try/catch:

  for (let batchIndex = 0; batchIndex < walletBatches.length; batchIndex++) {
    try { build transaction; await sendAndConfirmTransaction(...); log success }
    catch (error) { log failure; }
  }

Building, signing and submitting one batch is abstracted as
`submit : List Wallet → Except String String` (error message, or transaction
signature).  The per-batch console record (success line with signature /
error line with reason) is modelled as a `BatchResult`. -/

inductive BatchResult where
  | success (signature : String) : BatchResult
  | failure (reason : String) : BatchResult
deriving DecidableEq, Repr

def outcomeOf : Except String String → BatchResult
  | Except.ok sig => BatchResult.success sig
  | Except.error e => BatchResult.failure e

def runBatches (submit : List Wallet → Except String String) :
    List (List Wallet) → List BatchResult
  | [] => []
  | batch :: rest =>
    (match submit batch with
     | Except.ok sig => BatchResult.success sig
     | Except.error e => BatchResult.failure e) :: runBatches submit rest

/-- Claim C2: for every sequence of batches produced by the batch planner, a
failure while building, signing or submitting one batch does not prevent any
subsequent batch from being attempted: the loop records one outcome per
batch (success with a transaction signature or failure with a reason), each
depending only on that batch's own submission, and never aborts the run. -/
theorem batch_failures_isolated (submit : List Wallet → Except String String)
    (bs : List (List Wallet)) :
    runBatches submit bs = bs.map (fun b => outcomeOf (submit b))
    ∧ (runBatches submit bs).length = bs.length
    ∧ ∀ (l : List Wallet),
        runBatches submit (walletBatches 10 l)
            = (walletBatches 10 l).map (fun b => outcomeOf (submit b))
        ∧ runBatches submit (walletBatches 5 l)
            = (walletBatches 5 l).map (fun b => outcomeOf (submit b)) := by
  have key : ∀ cs : List (List Wallet),
      runBatches submit cs = cs.map (fun b => outcomeOf (submit b)) := by
    intro cs
    induction cs with
    | nil => rfl
    | cons c rest ih =>
      show (match submit c with
            | Except.ok sig => BatchResult.success sig
            | Except.error e => BatchResult.failure e) :: runBatches submit rest
          = outcomeOf (submit c) :: rest.map (fun b => outcomeOf (submit b))
      rw [ih]
      cases submit c <;> rfl
  refine ⟨key bs, ?_, fun l => ⟨key _, key _⟩⟩
  rw [key bs, List.length_map]

/-! ## Index range parser (parseWalletIndices, src/index.js lines 806-832)

  function parseWalletIndices(walletRangeStr) {
    if (!walletRangeStr) return [];
    const indices = [];
    const parts = walletRangeStr.split(',');
    for (const part of parts) {
      if (part.includes('-')) {
        const [start, end] = part.split('-').map(num => parseInt(num.trim()));
        if (!isNaN(start) && !isNaN(end)) {
          for (let i = start; i <= end; i++) indices.push(i);
        }
      } else {
        const index = parseInt(part.trim());
        if (!isNaN(index)) indices.push(index);
      }
    }
    return [...new Set(indices)].sort((a, b) => a - b);
  }

Strings are handled as lists of characters.  `jsSplitOn` models
String.prototype.split with a one-character separator (empty string gives
one empty field, separators delimit possibly-empty fields).  `jsParseInt`
models the library function parseInt applied to an already-trimmed string:
optional sign, then the maximal leading run of decimal digits, NaN (= none)
when that run is empty (the automatic hex-radix detection of parseInt for
"0x" prefixes is not modelled).  The final dedupe-then-numeric-sort
`[...new Set(indices)].sort((a, b) => a - b)` is modelled by `dedup`
followed by `insertionSort (≤)`: both produce the duplicate-free
ascending reordering of the collected indices. -/

def jsSplitOn (sep : Char) : List Char → List (List Char)
  | [] => [[]]
  | c :: cs =>
    if c = sep then [] :: jsSplitOn sep cs
    else
      match jsSplitOn sep cs with
      | [] => [[c]]
      | p :: ps => (c :: p) :: ps

def jsTrim (cs : List Char) : List Char :=
  ((cs.dropWhile Char.isWhitespace).reverse.dropWhile Char.isWhitespace).reverse

def jsParseInt (cs : List Char) : Option Int :=
  let signAndRest : Int × List Char :=
    match cs with
    | '-' :: r => (-1, r)
    | '+' :: r => (1, r)
    | r => (1, r)
  let ds := signAndRest.2.takeWhile Char.isDigit
  if ds.isEmpty then none
  else some (signAndRest.1 * (ds.foldl (fun n c => n * 10 + (c.toNat - 48)) 0 : Nat))

/-- The inclusive loop `for (let i = start; i <= end; i++) indices.push(i)`;
empty when start > end. -/
def intRange (start stop : Int) : List Int :=
  (List.range (stop - start + 1).toNat).map (fun k => start + k)

def tokenIndices (part : List Char) : List Int :=
  if part.contains '-' then
    let nums := (jsSplitOn '-' part).map (fun num => jsParseInt (jsTrim num))
    match nums[0]?, nums[1]? with
    | some (some start), some (some stop) => intRange start stop
    | _, _ => []
  else
    match jsParseInt (jsTrim part) with
    | some idx => [idx]
    | none => []

def collectIndices (cs : List Char) : List Int :=
  ((jsSplitOn ',' cs).map tokenIndices).flatten

def dedupSortInt (l : List Int) : List Int :=
  List.insertionSort (· ≤ ·) l.dedup

def parseWalletIndices (walletRangeStr : String) : List Int :=
  if walletRangeStr = "" then []
  else dedupSortInt (collectIndices walletRangeStr.toList)

/-- The CLI passes the -w option through unchanged; an absent option is the
JavaScript value `undefined`, which the guard `if (!walletRangeStr)` maps to
the empty list, exactly like the empty string. -/
def parseWalletIndicesOpt : Option String → List Int
  | none => []
  | some s => parseWalletIndices s

/-- Claim C5: for every selector string the index range parser returns the
sorted, duplicate-free list of the integers referenced by its comma-separated
tokens (single integers and inclusive low-high ranges), silently dropping
inverted or non-numeric tokens, with no upper-bound validation; in particular
parse "1,3,5-7" = [1,3,5,6,7], parse "" = [], parse "2,2,2" = [2], and an
absent selector yields the empty list. -/
theorem parse_wallet_indices_spec :
    (∀ s : String,
      (parseWalletIndices s).Sorted (· ≤ ·)
      ∧ (parseWalletIndices s).Nodup
      ∧ ∀ x : Int, x ∈ parseWalletIndices s ↔ x ∈ collectIndices s.toList)
    ∧ parseWalletIndices "1,3,5-7" = [1, 3, 5, 6, 7]
    ∧ parseWalletIndices "" = []
    ∧ parseWalletIndices "2,2,2" = [2]
    ∧ parseWalletIndices "3-1" = []
    ∧ parseWalletIndices "abc" = []
    ∧ parseWalletIndices "1,abc,3" = [1, 3]
    ∧ parseWalletIndices "999" = [999]
    ∧ parseWalletIndicesOpt none = [] := by
  refine ⟨?_, by decide, rfl, by decide, by decide, by decide, by decide,
    by decide, rfl⟩
  intro s
  by_cases hs : s = ""
  · subst hs
    refine ⟨by simp [parseWalletIndices], by simp [parseWalletIndices], ?_⟩
    intro x
    show x ∈ parseWalletIndices "" ↔ x ∈ collectIndices "".toList
    constructor
    · intro hx
      simp [parseWalletIndices] at hx
    · intro hx
      have : collectIndices "".toList = [] := by decide
      rw [this] at hx
      exact absurd hx (List.not_mem_nil x)
  · have hrw : parseWalletIndices s = dedupSortInt (collectIndices s.toList) := by
      unfold parseWalletIndices
      rw [if_neg hs]
    refine ⟨?_, ?_, ?_⟩
    · rw [hrw]
      exact List.sorted_insertionSort (· ≤ ·) _
    · rw [hrw]
      exact (List.perm_insertionSort (· ≤ ·) _).nodup_iff.mpr
        (List.nodup_dedup _)
    · intro x
      rw [hrw]
      unfold dedupSortInt
      rw [(List.perm_insertionSort (· ≤ ·) _).mem_iff, List.mem_dedup]

/-! ## Wallet creation (createWallet, src/index.js lines 75-95)

  function createWallet(name) {
    const wallets = loadWallets();
    if (wallets.some(w => w.name === name)) { return null; }   // no save
    const wallet = { name, publicKey, privateKey };            // fresh keypair
    wallets.push(wallet);
    saveWallets(wallets);
    return wallet;
  }

The freshly generated keypair is abstracted as the `publicKey`/`privateKey`
arguments; the result pairs the store contents after the call with the
returned wallet (`none` models the JavaScript `null`). -/

def createWallet (wallets : List Wallet) (name publicKey privateKey : String) :
    List Wallet × Option Wallet :=
  if wallets.any (fun w => w.name == name) then (wallets, none)
  else
    let wallet : Wallet := ⟨name, publicKey, privateKey⟩
    (wallets ++ [wallet], some wallet)

/-! ## Import merge (importWallets, src/index.js lines 284-315)

  const mergedWallets = [...existingWallets];
  let importCount = 0;
  for (const wallet of processedWallets) {
    const duplicateNameIndex = mergedWallets.findIndex(w => w.name === wallet.name);
    const duplicateKeyIndex = mergedWallets.findIndex(w => w.publicKey === wallet.publicKey);
    if (duplicateNameIndex !== -1) {
      if (options.overwrite) { mergedWallets[duplicateNameIndex] = wallet; importCount++; }
      else { /* skip */ }
    } else if (duplicateKeyIndex !== -1) {
      if (options.overwrite) { mergedWallets[duplicateKeyIndex] = wallet; importCount++; }
      else { /* skip */ }
    } else { mergedWallets.push(wallet); importCount++; }
  }

`findIndexOpt` models Array.prototype.findIndex (`none` for -1).  The source
computes duplicateKeyIndex eagerly but only reads it when duplicateNameIndex
is -1; findIndex is pure, so the nested match below is equivalent. -/

def findIndexOpt (p : Wallet → Bool) : List Wallet → Option Nat
  | [] => none
  | w :: rest => if p w then some 0 else (findIndexOpt p rest).map (· + 1)

def importMergeGo (overwrite : Bool) :
    List Wallet → Nat → List Wallet → List Wallet × Nat
  | merged, importCount, [] => (merged, importCount)
  | merged, importCount, w :: rest =>
    match findIndexOpt (fun x => x.name == w.name) merged with
    | some i =>
      if overwrite then importMergeGo overwrite (merged.set i w) (importCount + 1) rest
      else importMergeGo overwrite merged importCount rest
    | none =>
      match findIndexOpt (fun x => x.publicKey == w.publicKey) merged with
      | some i =>
        if overwrite then importMergeGo overwrite (merged.set i w) (importCount + 1) rest
        else importMergeGo overwrite merged importCount rest
      | none => importMergeGo overwrite (merged ++ [w]) (importCount + 1) rest

def importMerge (overwrite : Bool) (existingWallets processedWallets : List Wallet) :
    List Wallet × Nat :=
  importMergeGo overwrite existingWallets 0 processedWallets

/-! Specification-side view of the merge, used to state that the returned
returned import count counts exactly the appended/overwritten records.  Modelled
from the spec: "merge with these rules evaluated per incoming record, in
incoming-list order: if an existing record shares the same name, either
overwrite (if overwrite mode enabled) or skip-with-diagnostic; else if an
existing record shares the same address, apply the same overwrite/skip rule;
else append as new.  Returns the merged list and a count of records actually
imported (appended or overwritten), distinct from records skipped." -/

inductive MergeOutcome where
  | appended : MergeOutcome
  | overwritten : MergeOutcome
  | skipped : MergeOutcome
deriving DecidableEq, Repr

def mergeOutcome (overwrite : Bool) (merged : List Wallet) (w : Wallet) :
    MergeOutcome :=
  match findIndexOpt (fun x => x.name == w.name) merged with
  | some _ => if overwrite then MergeOutcome.overwritten else MergeOutcome.skipped
  | none =>
    match findIndexOpt (fun x => x.publicKey == w.publicKey) merged with
    | some _ => if overwrite then MergeOutcome.overwritten else MergeOutcome.skipped
    | none => MergeOutcome.appended

def mergeApply (overwrite : Bool) (merged : List Wallet) (w : Wallet) :
    List Wallet :=
  match findIndexOpt (fun x => x.name == w.name) merged with
  | some i => if overwrite then merged.set i w else merged
  | none =>
    match findIndexOpt (fun x => x.publicKey == w.publicKey) merged with
    | some i => if overwrite then merged.set i w else merged
    | none => merged ++ [w]

def mergeTrace (overwrite : Bool) : List Wallet → List Wallet → List MergeOutcome
  | _, [] => []
  | merged, w :: rest =>
    mergeOutcome overwrite merged w
      :: mergeTrace overwrite (mergeApply overwrite merged w) rest

def importedCount (trace : List MergeOutcome) : Nat :=
  (trace.filter (fun r => r != MergeOutcome.skipped)).length

theorem importedCount_cons (r : MergeOutcome) (t : List MergeOutcome) :
    importedCount (r :: t)
      = (if r = MergeOutcome.skipped then 0 else 1) + importedCount t := by
  cases r <;> simp [importedCount, List.filter_cons, Nat.add_comm]

theorem importMergeGo_cons (o : Bool) (merged : List Wallet) (c : Nat)
    (w : Wallet) (rest : List Wallet) :
    importMergeGo o merged c (w :: rest)
      = importMergeGo o (mergeApply o merged w)
          (c + (if mergeOutcome o merged w = MergeOutcome.skipped then 0 else 1))
          rest := by
  cases hn : findIndexOpt (fun x => x.name == w.name) merged with
  | some i =>
    cases o <;> simp [importMergeGo, mergeApply, mergeOutcome, hn]
  | none =>
    cases hk : findIndexOpt (fun x => x.publicKey == w.publicKey) merged with
    | some i =>
      cases o <;> simp [importMergeGo, mergeApply, mergeOutcome, hn, hk]
    | none =>
      simp [importMergeGo, mergeApply, mergeOutcome, hn, hk]

theorem importMergeGo_trace (o : Bool) :
    ∀ (inc merged : List Wallet) (c : Nat),
      importMergeGo o merged c inc
        = (inc.foldl (mergeApply o) merged,
           c + importedCount (mergeTrace o merged inc)) := by
  intro inc
  induction inc with
  | nil =>
    intro merged c
    simp [importMergeGo, mergeTrace, importedCount]
  | cons w rest ih =>
    intro merged c
    have trace_cons : mergeTrace o merged (w :: rest)
        = mergeOutcome o merged w
            :: mergeTrace o (mergeApply o merged w) rest := rfl
    rw [importMergeGo_cons, ih, trace_cons, importedCount_cons, List.foldl_cons]
    simp [Nat.add_assoc]

theorem mergeTrace_length (o : Bool) :
    ∀ (inc merged : List Wallet), (mergeTrace o merged inc).length = inc.length := by
  intro inc
  induction inc with
  | nil => intro merged; rfl
  | cons w rest ih =>
    intro merged
    show (mergeOutcome o merged w
        :: mergeTrace o (mergeApply o merged w) rest).length = rest.length + 1
    rw [List.length_cons, ih]

/-- Claim C6: the import merge processes incoming records in order: a record
sharing a name with an existing record is overwritten in place if overwrite
mode is enabled and skipped otherwise; else a record sharing a public key is
handled by the same overwrite/skip rule; else it is appended
(`mergeApply`/`mergeOutcome` encode exactly these per-record rules); the
reported import count counts exactly the appended and overwritten records,
and with overwrite disabled a name-duplicate leaves the store unchanged and
is not counted as imported. -/
theorem import_merge_rules (o : Bool) (existing incoming : List Wallet) :
    (importMerge o existing incoming).1 = incoming.foldl (mergeApply o) existing
    ∧ (importMerge o existing incoming).2
        = importedCount (mergeTrace o existing incoming)
    ∧ (mergeTrace o existing incoming).length = incoming.length
    ∧ (∀ w : Wallet,
        (findIndexOpt (fun x => x.name == w.name) existing).isSome = true →
        importMerge false existing [w] = (existing, 0)
        ∧ mergeOutcome false existing w = MergeOutcome.skipped) := by
  refine ⟨?_, ?_, mergeTrace_length o incoming existing, ?_⟩
  · rw [importMerge, importMergeGo_trace]
  · rw [importMerge, importMergeGo_trace]
    simp
  · intro w hw
    obtain ⟨i, hi⟩ := Option.isSome_iff_exists.mp hw
    constructor
    · simp [importMerge, importMergeGo, hi]
    · simp [mergeOutcome, hi]

/-- Concrete instance of `import_merge_rules`: with overwrite disabled, a
name-duplicate leaves the store unchanged and counts zero imports. -/
theorem import_merge_rules_witness :
    importMerge false [⟨"a", "p", "k"⟩] [⟨"a", "q", "j"⟩]
      = ([⟨"a", "p", "k"⟩], 0) :=
  ((import_merge_rules false [⟨"a", "p", "k"⟩] [⟨"a", "q", "j"⟩]).2.2.2
    ⟨"a", "q", "j"⟩ (by decide)).1

/-! ## Name-uniqueness invariant (claim C8) -/

theorem findIndexOpt_some (p : Wallet → Bool) :
    ∀ (l : List Wallet) (i : Nat), findIndexOpt p l = some i →
      ∃ x, l[i]? = some x ∧ p x = true := by
  intro l
  induction l with
  | nil => intro i h; exact Option.noConfusion h
  | cons w rest ih =>
    intro i h
    by_cases hw : p w
    · simp only [findIndexOpt, if_pos hw, Option.some.injEq] at h
      subst h
      exact ⟨w, by simp, hw⟩
    · simp only [findIndexOpt, if_neg hw] at h
      obtain ⟨j, hj, rfl⟩ := Option.map_eq_some'.mp h
      obtain ⟨x, hx, hpx⟩ := ih j hj
      exact ⟨x, by rw [List.getElem?_cons_succ]; exact hx, hpx⟩

theorem findIndexOpt_none (p : Wallet → Bool) :
    ∀ (l : List Wallet), findIndexOpt p l = none → ∀ x ∈ l, p x = false := by
  intro l
  induction l with
  | nil => intro _ x hx; exact absurd hx (List.not_mem_nil x)
  | cons w rest ih =>
    intro h x hx
    by_cases hw : p w
    · simp only [findIndexOpt, if_pos hw] at h
      exact Option.noConfusion h
    · simp only [findIndexOpt, if_neg hw, Option.map_eq_none'] at h
      rcases List.mem_cons.mp hx with rfl | hx'
      · exact Bool.eq_false_iff.mpr hw
      · exact ih h x hx'

theorem set_getElem?_self {α : Type} :
    ∀ (l : List α) (i : Nat) (a : α), l[i]? = some a → l.set i a = l := by
  intro l
  induction l with
  | nil => intro i a h; exact Option.noConfusion h
  | cons x xs ih =>
    intro i a h
    cases i with
    | zero =>
      simp only [List.getElem?_cons_zero, Option.some.injEq] at h
      subst h
      rfl
    | succ j =>
      simp only [List.getElem?_cons_succ] at h
      show x :: xs.set j a = x :: xs
      rw [ih j a h]

theorem nodup_set_of_not_mem {α : Type} :
    ∀ (l : List α) (i : Nat) (a : α), l.Nodup → a ∉ l → (l.set i a).Nodup := by
  intro l
  induction l with
  | nil => intro i a _ _; simp
  | cons x xs ih =>
    intro i a hnd hmem
    rw [List.nodup_cons] at hnd
    cases i with
    | zero =>
      show (a :: xs).Nodup
      rw [List.nodup_cons]
      exact ⟨fun hx => hmem (List.mem_cons_of_mem x hx), hnd.2⟩
    | succ j =>
      show (x :: xs.set j a).Nodup
      rw [List.nodup_cons]
      refine ⟨?_, ih j a hnd.2 (fun hx => hmem (List.mem_cons_of_mem x hx))⟩
      intro hx
      rcases List.mem_or_eq_of_mem_set hx with hx' | heq
      · exact hnd.1 hx'
      · subst heq
        exact hmem (List.mem_cons_self x xs)

theorem nodup_append_single {α : Type} (l : List α) (a : α)
    (hnd : l.Nodup) (hmem : a ∉ l) : (l ++ [a]).Nodup := by
  rw [(List.perm_append_singleton a l).nodup_iff, List.nodup_cons]
  exact ⟨hmem, hnd⟩

theorem mergeApply_names_nodup (o : Bool) (merged : List Wallet) (w : Wallet)
    (h : (merged.map Wallet.name).Nodup) :
    ((mergeApply o merged w).map Wallet.name).Nodup := by
  cases hn : findIndexOpt (fun x => x.name == w.name) merged with
  | some i =>
    cases o with
    | false =>
      have ha : mergeApply false merged w = merged := by simp [mergeApply, hn]
      rw [ha]
      exact h
    | true =>
      have ha : mergeApply true merged w = merged.set i w := by
        simp [mergeApply, hn]
      obtain ⟨x, hx, hpx⟩ := findIndexOpt_some _ merged i hn
      have hname : x.name = w.name := by simpa using hpx
      rw [ha, List.map_set]
      have hsame : (merged.map Wallet.name)[i]? = some w.name := by
        rw [List.getElem?_map, hx]
        simp [hname]
      rw [set_getElem?_self _ i _ hsame]
      exact h
  | none =>
    have hfresh : w.name ∉ merged.map Wallet.name := by
      intro hmem
      obtain ⟨x, hx, hxe⟩ := List.mem_map.mp hmem
      have hfalse := findIndexOpt_none _ merged hn x hx
      simp [hxe] at hfalse
    cases hk : findIndexOpt (fun x => x.publicKey == w.publicKey) merged with
    | some i =>
      cases o with
      | false =>
        have ha : mergeApply false merged w = merged := by
          simp [mergeApply, hn, hk]
        rw [ha]
        exact h
      | true =>
        have ha : mergeApply true merged w = merged.set i w := by
          simp [mergeApply, hn, hk]
        rw [ha, List.map_set]
        exact nodup_set_of_not_mem _ i _ h hfresh
    | none =>
      have ha : mergeApply o merged w = merged ++ [w] := by
        simp [mergeApply, hn, hk]
      rw [ha, List.map_append]
      exact nodup_append_single _ _ h hfresh

theorem importMergeGo_names_nodup (o : Bool) :
    ∀ (inc merged : List Wallet) (c : Nat),
      (merged.map Wallet.name).Nodup →
      (((importMergeGo o merged c inc).1).map Wallet.name).Nodup := by
  intro inc
  induction inc with
  | nil => intro merged c h; exact h
  | cons w rest ih =>
    intro merged c h
    rw [importMergeGo_cons]
    exact ih _ _ (mergeApply_names_nodup o merged w h)

/-- Claim C8: every mutating operation on the wallet store (wallet creation
and import merge) preserves the invariant that no two stored records share a
name: starting from a store with pairwise-distinct names, the store after
the operation still has pairwise-distinct names. -/
theorem name_uniqueness_preserved (wallets : List Wallet)
    (h : (wallets.map Wallet.name).Nodup) :
    (∀ name publicKey privateKey : String,
      (((createWallet wallets name publicKey privateKey).1).map Wallet.name).Nodup)
    ∧ (∀ (overwrite : Bool) (incoming : List Wallet),
      (((importMerge overwrite wallets incoming).1).map Wallet.name).Nodup) := by
  constructor
  · intro name publicKey privateKey
    unfold createWallet
    by_cases hc : wallets.any (fun w => w.name == name)
    · rw [if_pos hc]
      exact h
    · rw [if_neg hc]
      show ((wallets ++ [Wallet.mk name publicKey privateKey]).map Wallet.name).Nodup
      rw [List.map_append]
      have hfresh : name ∉ wallets.map Wallet.name := by
        intro hmem
        obtain ⟨x, hx, hxe⟩ := List.mem_map.mp hmem
        have hany : wallets.any (fun w => w.name == name) = true :=
          List.any_eq_true.mpr ⟨x, hx, by simp [hxe]⟩
        exact hc hany
      exact nodup_append_single _ _ h hfresh
  · intro overwrite incoming
    exact importMergeGo_names_nodup overwrite incoming wallets 0 h

/-- Concrete instance of `name_uniqueness_preserved`: creating a wallet with
a fresh name on a one-record store keeps the names distinct. -/
theorem name_uniqueness_preserved_witness :
    (((createWallet [⟨"a", "p", "k"⟩] "b" "q" "j").1).map Wallet.name).Nodup :=
  (name_uniqueness_preserved [⟨"a", "p", "k"⟩] (by decide)).1 "b" "q" "j"

/-! ## Import record validation (importWallets, src/index.js lines 154-260)

A raw record of the import file may carry any subset of the three fields
(JavaScript object properties; `none` models an absent property and the JS
truthiness test `!wallet.name` treats the empty string like an absent one).

Format detection (lines 169-176) looks only at the FIRST record:

  const sampleWallet = importedWallets[0] || {};
  if (sampleWallet.name && sampleWallet.publicKey && sampleWallet.privateKey)
    format = "standard";
  else if (sampleWallet.publicKey && sampleWallet.privateKey)
    format = "keyonly";

Per-record processing (lines 181-260) then branches on that single format:
standard records must carry all three fields and their secret is used as-is;
keyonly records get a generated name when absent and their secret is
converted from base64 to base58 when it contains '+', '/' or '='
(conversion failure falls back to the original text).  Finally the keypair
is re-derived from the secret: derivation failure skips the record, and a
derived public key differing from the stored one skips the record unless
--fix-public-keys is set, in which case the derived key replaces the stored
one.  `derivePub` abstracts bs58.decode + Keypair.fromSecretKey
(`none` = the library threw), `b64ToB58` abstracts
base64Decode + bs58.encode (`none` = base64Decode threw). -/

structure RawWallet where
  name : Option String
  publicKey : Option String
  privateKey : Option String
deriving DecidableEq, Repr

def truthy : Option String → Bool
  | none => false
  | some s => s != ""

inductive ImportFormat where
  | standard : ImportFormat
  | keyonly : ImportFormat
  | unknown : ImportFormat
deriving DecidableEq, Repr

def detectFormat (importedWallets : List RawWallet) : ImportFormat :=
  let sample := importedWallets.headD ⟨none, none, none⟩
  if truthy sample.name && truthy sample.publicKey && truthy sample.privateKey then
    ImportFormat.standard
  else if truthy sample.publicKey && truthy sample.privateKey then
    ImportFormat.keyonly
  else ImportFormat.unknown

def isBase64Marked (s : String) : Bool :=
  s.toList.contains '+' || s.toList.contains '/' || s.toList.contains '='

def processRecord (derivePub b64ToB58 : String → Option String)
    (fixPublicKeys : Bool) (format : ImportFormat) (i : Nat) (w : RawWallet) :
    Option Wallet :=
  let staged : Option Wallet :=
    match format with
    | ImportFormat.standard =>
      if truthy w.name && truthy w.publicKey && truthy w.privateKey then
        some ⟨w.name.getD "", w.publicKey.getD "", w.privateKey.getD ""⟩
      else none
    | ImportFormat.keyonly =>
      if truthy w.publicKey && truthy w.privateKey then
        let name :=
          if truthy w.name then w.name.getD ""
          else "imported_wallet" ++ toString (i + 1)
        let pk := w.privateKey.getD ""
        let privateKeyBase58 :=
          if isBase64Marked pk then (b64ToB58 pk).getD pk else pk
        some ⟨name, w.publicKey.getD "", privateKeyBase58⟩
      else none
    | ImportFormat.unknown => none
  match staged with
  | none => none
  | some pw =>
    match derivePub pw.privateKey with
    | none => none
    | some derived =>
      if derived == pw.publicKey then some pw
      else if fixPublicKeys then some { pw with publicKey := derived }
      else none

def processGo (derivePub b64ToB58 : String → Option String)
    (fixPublicKeys : Bool) (format : ImportFormat) :
    Nat → List RawWallet → List Wallet
  | _, [] => []
  | i, w :: rest =>
    match processRecord derivePub b64ToB58 fixPublicKeys format i w with
    | some pw => pw :: processGo derivePub b64ToB58 fixPublicKeys format (i + 1) rest
    | none => processGo derivePub b64ToB58 fixPublicKeys format (i + 1) rest

def processImports (derivePub b64ToB58 : String → Option String)
    (fixPublicKeys : Bool) (importedWallets : List RawWallet) : List Wallet :=
  processGo derivePub b64ToB58 fixPublicKeys (detectFormat importedWallets)
    0 importedWallets

/-- Claim C7: a record that fails validation (missing required fields, an
undecodable secret key, or a stored address that does not match the derived
address when the fix option is off) is skipped and processing of all
remaining records continues; with the fix option on, the derived address
replaces the stored one instead of skipping. -/
theorem import_validation_rules (derivePub b64ToB58 : String → Option String)
    (i : Nat) (name publicKey privateKey : String)
    (hn : name ≠ "") (hp : publicKey ≠ "") (hk : privateKey ≠ "") :
    (∀ (fix : Bool) (fmt : ImportFormat) (w : RawWallet) (rest : List RawWallet),
      processGo derivePub b64ToB58 fix fmt i (w :: rest)
        = (processRecord derivePub b64ToB58 fix fmt i w).toList
            ++ processGo derivePub b64ToB58 fix fmt (i + 1) rest)
    ∧ (∀ fix : Bool, processRecord derivePub b64ToB58 fix ImportFormat.standard i
        ⟨none, some publicKey, some privateKey⟩ = none)
    ∧ (derivePub privateKey = none → ∀ fix : Bool,
        processRecord derivePub b64ToB58 fix ImportFormat.standard i
          ⟨some name, some publicKey, some privateKey⟩ = none)
    ∧ (∀ derived : String, derivePub privateKey = some derived →
        derived ≠ publicKey →
        processRecord derivePub b64ToB58 false ImportFormat.standard i
          ⟨some name, some publicKey, some privateKey⟩ = none)
    ∧ (∀ derived : String, derivePub privateKey = some derived →
        derived ≠ publicKey →
        processRecord derivePub b64ToB58 true ImportFormat.standard i
          ⟨some name, some publicKey, some privateKey⟩
          = some ⟨name, derived, privateKey⟩)
    ∧ (isBase64Marked privateKey = false →
        ∀ derived : String, derivePub privateKey = some derived →
        derived ≠ publicKey →
        processRecord derivePub b64ToB58 true ImportFormat.keyonly i
          ⟨none, some publicKey, some privateKey⟩
          = some ⟨"imported_wallet" ++ toString (i + 1), derived, privateKey⟩) := by
  refine ⟨?_, ?_, ?_, ?_, ?_, ?_⟩
  · intro fix fmt w rest
    cases hr : processRecord derivePub b64ToB58 fix fmt i w <;>
      simp [processGo, hr]
  · intro fix
    simp [processRecord, truthy]
  · intro hd fix
    simp [processRecord, truthy, hn, hp, hk, hd]
  · intro derived hd hne
    simp [processRecord, truthy, hn, hp, hk, hd, hne]
  · intro derived hd hne
    simp [processRecord, truthy, hn, hp, hk, hd, hne]
  · intro hmark derived hd hne
    simp [processRecord, truthy, hp, hk, hmark, hd, hne]

/-- Concrete instance of `import_validation_rules`: a standard-format record
whose secret key the library cannot decode is skipped. -/
theorem import_validation_rules_witness :
    processRecord (fun _ => none) (fun _ => none) false ImportFormat.standard 0
      ⟨some "a", some "p", some "k"⟩ = none :=
  (import_validation_rules (fun _ => none) (fun _ => none) 0 "a" "p" "k"
    (by decide) (by decide) (by decide)).2.2.1 rfl false

/-! ## Claim C9: mixed record shapes and encodings in one import file

Derivation oracle for the counterexample: secret "K" derives address "P" and
secret "L" derives address "Q", so both records of the file below are
individually valid. -/

def dpC9 : String → Option String :=
  fun s => if s = "K" then some "P" else if s = "L" then some "Q" else none

def b64C9 : String → Option String := fun _ => none

/-- Claim C9, counterexample: an import file whose first record has the
{name, address, secret} shape is detected as standard format, and its second
record — a perfectly valid {address, secret} record whose secret derives its
stored address — is nevertheless skipped for missing fields, so the importer
does NOT accept records in either shape regardless of how shapes are mixed
across one file. -/
theorem mixed_shapes_counterexample :
    processImports dpC9 b64C9 false
        [⟨some "a", some "P", some "K"⟩, ⟨none, some "Q", some "L"⟩]
      = [⟨"a", "P", "K"⟩]
    ∧ ∀ w ∈ processImports dpC9 b64C9 false
        [⟨some "a", some "P", some "K"⟩, ⟨none, some "Q", some "L"⟩],
        w.publicKey ≠ "Q" := by
  exact ⟨by decide, by decide⟩

/-- Claim C9, amended: the importer detects one format from the file's first
record and applies it to every record: if the first record has truthy name,
address and secret the file is standard — every record must then carry all
three fields (records in the {address, secret} shape are skipped) and
secrets are stored as-is with no encoding detection; if the first record
lacks a truthy name but has address and secret the file is key-only — then
names are generated from the record position when absent and each record's
secret encoding is auto-detected: a secret containing '+', '/' or '=' is
treated as base64 and converted to base58, any other secret is taken as
base58 unchanged. -/
theorem import_format_detection (derivePub b64ToB58 : String → Option String)
    (i : Nat) (r : RawWallet) (rest : List RawWallet) (publicKey privateKey : String)
    (hp : publicKey ≠ "") (hk : privateKey ≠ "") :
    (truthy r.name = true → truthy r.publicKey = true →
      truthy r.privateKey = true →
      detectFormat (r :: rest) = ImportFormat.standard)
    ∧ (truthy r.name = false → truthy r.publicKey = true →
      truthy r.privateKey = true →
      detectFormat (r :: rest) = ImportFormat.keyonly)
    ∧ (∀ fix : Bool, processRecord derivePub b64ToB58 fix ImportFormat.standard i
        ⟨none, some publicKey, some privateKey⟩ = none)
    ∧ (∀ name : String, name ≠ "" → derivePub privateKey = some publicKey →
        processRecord derivePub b64ToB58 false ImportFormat.standard i
          ⟨some name, some publicKey, some privateKey⟩
          = some ⟨name, publicKey, privateKey⟩)
    ∧ (∀ converted : String, isBase64Marked privateKey = true →
        b64ToB58 privateKey = some converted →
        derivePub converted = some publicKey →
        processRecord derivePub b64ToB58 false ImportFormat.keyonly i
          ⟨none, some publicKey, some privateKey⟩
          = some ⟨"imported_wallet" ++ toString (i + 1), publicKey, converted⟩)
    ∧ (isBase64Marked privateKey = false →
        derivePub privateKey = some publicKey →
        processRecord derivePub b64ToB58 false ImportFormat.keyonly i
          ⟨none, some publicKey, some privateKey⟩
          = some ⟨"imported_wallet" ++ toString (i + 1), publicKey, privateKey⟩) := by
  refine ⟨?_, ?_, ?_, ?_, ?_, ?_⟩
  · intro h1 h2 h3
    simp [detectFormat, h1, h2, h3]
  · intro h1 h2 h3
    simp [detectFormat, h1, h2, h3]
  · intro fix
    simp [processRecord, truthy]
  · intro name hn hd
    simp [processRecord, truthy, hn, hp, hk, hd]
  · intro converted hmark hconv hd
    simp [processRecord, truthy, hp, hk, hmark, hconv, hd]
  · intro hmark hd
    simp [processRecord, truthy, hp, hk, hmark, hd]

/-- Derivation oracles for the `import_format_detection` witness: base64
secret "+x" converts to base58 "C", which derives address "B". -/
def dpC9w : String → Option String :=
  fun s => if s = "C" then some "B" else none

def b64C9w : String → Option String :=
  fun s => if s = "+x" then some "C" else none

/-- Concrete instance of `import_format_detection`: a key-only record with a
base64-marked secret is stored with the converted base58 secret. -/
theorem import_format_detection_witness :
    processRecord dpC9w b64C9w false ImportFormat.keyonly 0
      ⟨none, some "B", some "+x"⟩
      = some ⟨"imported_wallet" ++ toString (0 + 1), "B", "C"⟩ :=
  (import_format_detection dpC9w b64C9w 0 ⟨none, none, none⟩ [] "B" "+x"
    (by decide) (by decide)).2.2.2.2.1 "C" (by decide) (by decide) (by decide)

end SolScript
